import Mathlib

/-!
Verification of the label-extraction, search-orchestration and
aggregation/reporting core of the lens_app_matcher program
(src/src/lens_app_matcher.py), as a shallow embedding in Lean 4.

The Python program matches label values with the regular expression
  re.search(re.escape(label_key) + ':\s*["\x27]?([^"\x27\s\n]+)["\x27]?',
            text, re.IGNORECASE)
We embed this specific pattern family directly: the leftmost-first scan of
re.search becomes an explicit scan over start positions, the literal
(escaped) key is matched case-insensitively character by character, and the
backtracking behaviour of the suffix pattern
  \s* ["\x27]? ([^"\x27\s\n]+) ["\x27]?
collapses to: skip the maximal run of whitespace, optionally consume one
quote provided a value character follows, then capture the maximal run of
value characters (the trailing optional quote constrains nothing).
-/

/-- Whitespace as matched by the regex class backslash-s over the
characters relevant here: space, tab, newline, carriage return, vertical
tab, form feed. -/
def isSpaceChar (c : Char) : Bool :=
  c = ' ' || c = '\t' || c = '\n' || c = '\r' || c = '\x0b' || c = '\x0c'

/-- Quote characters of the pattern: double quote or single quote. -/
def isQuoteChar (c : Char) : Bool :=
  c = '"' || c = '\x27'

/-- Characters admitted by the capture group of the pattern: anything that
is neither a quote nor whitespace (the class excludes quotes, backslash-s
and newline; newline is already whitespace). -/
def isValueChar (c : Char) : Bool :=
  !(isQuoteChar c) && !(isSpaceChar c)

/-- Case-insensitive character comparison, modelling re.IGNORECASE on the
literal (escaped) key. -/
def charIEq (a b : Char) : Bool :=
  a.toLower == b.toLower

/-- Match the literal pattern characters at the front of the text,
case-insensitively; on success return the remaining text. -/
def stripKey : List Char → List Char → Option (List Char)
  | rest, [] => some rest
  | [], _ :: _ => none
  | c :: cs, k :: ks => if charIEq c k then stripKey cs ks else none

/-- Maximal run of capture-class characters at the front of the text,
together with the remaining text (the greedy one-or-more capture). -/
def captureRun : List Char → List Char × List Char
  | [] => ([], [])
  | c :: cs =>
    if isValueChar c then
      let p := captureRun cs
      (c :: p.1, p.2)
    else ([], c :: cs)

/-- Match the suffix pattern (optional whitespace, optional opening quote,
captured value) against the text that follows the key and colon, returning
the captured value.  Whitespace is skipped greedily; a quote is consumed
only when a value character follows it (otherwise every backtracking
alternative of the regex fails at this start position). -/
def matchValue (rest : List Char) : Option (List Char) :=
  match rest.dropWhile isSpaceChar with
  | [] => none
  | c :: cs =>
    if isQuoteChar c then
      match cs with
      | [] => none
      | d :: _ => if isValueChar d then some (captureRun cs).1 else none
    else if isValueChar c then some (captureRun (c :: cs)).1
    else none

/-- Attempt the whole pattern at one start position: the literal pattern
characters (key followed by colon), then the value suffix. -/
def tryMatch (pat txt : List Char) : Option (List Char) :=
  match stripKey txt pat with
  | none => none
  | some rest => matchValue rest

/-- Leftmost search: attempt the pattern at every start position from left
to right, as re.search does. -/
def searchAux (pat : List Char) : List Char → Option (List Char)
  | [] => tryMatch pat []
  | c :: cs =>
    match tryMatch pat (c :: cs) with
    | some v => some v
    | none => searchAux pat cs

/-- Embedding of GitHubAPIClient.extract_label_value: search the text for
the escaped key followed by a colon, optional whitespace, an optionally
quoted value, and return the first captured value, if any. -/
def extract_label_value (text label_key : String) : Option String :=
  (searchAux (label_key.data ++ [':']) text.data).map fun cs => String.mk cs

theorem extract_example_dq :
    extract_label_value "app.kubernetes.io/name: \"nginx\"" "app.kubernetes.io/name" =
      some "nginx" := by decide

theorem extract_example_multi :
    extract_label_value "key: a\nkey: b" "key" = some "a" := by decide

/-!
Fingerprints (md5_and_base64encode in the source): the MD5 digest of the
UTF-8 bytes of the value, rendered as a 32-character lowercase hex string,
and the standard Base64 encoding of the UTF-8 bytes of that hex string.
Bytes and 32-bit words are Nat values reduced modulo 256 and 2 ^ 32.
-/

/-- UTF-8 encoding of one character, as byte values. -/
def utf8Bytes (c : Char) : List Nat :=
  let n := c.toNat
  if n < 0x80 then [n]
  else if n < 0x800 then [0xc0 + n / 0x40, 0x80 + n % 0x40]
  else if n < 0x10000 then
    [0xe0 + n / 0x1000, 0x80 + n / 0x40 % 0x40, 0x80 + n % 0x40]
  else
    [0xf0 + n / 0x40000, 0x80 + n / 0x1000 % 0x40, 0x80 + n / 0x40 % 0x40,
      0x80 + n % 0x40]

/-- UTF-8 bytes of a string (the encode method of Python str). -/
def strBytes (s : String) : List Nat :=
  (s.data.map utf8Bytes).flatten

/-- Per-round additive constants of MD5 (floor of 2 ^ 32 times the absolute
sine of the round index plus one). -/
def md5K : List Nat :=
  [0xd76aa478, 0xe8c7b756, 0x242070db, 0xc1bdceee,
   0xf57c0faf, 0x4787c62a, 0xa8304613, 0xfd469501,
   0x698098d8, 0x8b44f7af, 0xffff5bb1, 0x895cd7be,
   0x6b901122, 0xfd987193, 0xa679438e, 0x49b40821,
   0xf61e2562, 0xc040b340, 0x265e5a51, 0xe9b6c7aa,
   0xd62f105d, 0x02441453, 0xd8a1e681, 0xe7d3fbc8,
   0x21e1cde6, 0xc33707d6, 0xf4d50d87, 0x455a14ed,
   0xa9e3e905, 0xfcefa3f8, 0x676f02d9, 0x8d2a4c8a,
   0xfffa3942, 0x8771f681, 0x6d9d6122, 0xfde5380c,
   0xa4beea44, 0x4bdecfa9, 0xf6bb4b60, 0xbebfbc70,
   0x289b7ec6, 0xeaa127fa, 0xd4ef3085, 0x04881d05,
   0xd9d4d039, 0xe6db99e5, 0x1fa27cf8, 0xc4ac5665,
   0xf4292244, 0x432aff97, 0xab9423a7, 0xfc93a039,
   0x655b59c3, 0x8f0ccc92, 0xffeff47d, 0x85845dd1,
   0x6fa87e4f, 0xfe2ce6e0, 0xa3014314, 0x4e0811a1,
   0xf7537e82, 0xbd3af235, 0x2ad7d2bb, 0xeb86d391]

/-- Per-round left-rotation amounts of MD5. -/
def md5S : List Nat :=
  [7, 12, 17, 22, 7, 12, 17, 22, 7, 12, 17, 22, 7, 12, 17, 22,
   5, 9, 14, 20, 5, 9, 14, 20, 5, 9, 14, 20, 5, 9, 14, 20,
   4, 11, 16, 23, 4, 11, 16, 23, 4, 11, 16, 23, 4, 11, 16, 23,
   6, 10, 15, 21, 6, 10, 15, 21, 6, 10, 15, 21, 6, 10, 15, 21]

/-- Running state of MD5: four 32-bit words. -/
structure MD5State where
  a : Nat
  b : Nat
  c : Nat
  d : Nat

/-- Initial MD5 state. -/
def md5Init : MD5State :=
  ⟨0x67452301, 0xefcdab89, 0x98badcfe, 0x10325476⟩

/-- Left rotation of a 32-bit word by n bits. -/
def rotl32 (x n : Nat) : Nat :=
  (x * 2 ^ n + x / 2 ^ (32 - n)) % 2 ^ 32

/-- Nonlinear mixing function of MD5, selected by the round index. -/
def md5F (i b c d : Nat) : Nat :=
  if i < 16 then b &&& c ||| (b ^^^ 0xffffffff) &&& d
  else if i < 32 then d &&& b ||| (d ^^^ 0xffffffff) &&& c
  else if i < 48 then b ^^^ c ^^^ d
  else c ^^^ (b ||| d ^^^ 0xffffffff)

/-- Message-word index used by round i of MD5. -/
def md5G (i : Nat) : Nat :=
  if i < 16 then i
  else if i < 32 then (5 * i + 1) % 16
  else if i < 48 then (3 * i + 5) % 16
  else 7 * i % 16

/-- One MD5 round on the state, for round index i over message words M. -/
def md5Round (M : List Nat) (st : MD5State) (i : Nat) : MD5State :=
  let f := (md5F i st.b st.c st.d + st.a + md5K.getD i 0 + M.getD (md5G i) 0) % 2 ^ 32
  ⟨st.d, (st.b + rotl32 f (md5S.getD i 0)) % 2 ^ 32, st.b, st.c⟩

/-- Little-endian 32-bit words of a byte sequence. -/
def leWords : List Nat → List Nat
  | b0 :: b1 :: b2 :: b3 :: rest =>
    (b0 + b1 * 256 + b2 * 65536 + b3 * 16777216) :: leWords rest
  | _ => []

/-- Process one 64-byte chunk: run the 64 rounds and add the result to the
incoming state, word-wise modulo 2 ^ 32. -/
def processChunk (st : MD5State) (chunk : List Nat) : MD5State :=
  let M := leWords chunk
  let r := (List.range 64).foldl (md5Round M) st
  ⟨(st.a + r.a) % 2 ^ 32, (st.b + r.b) % 2 ^ 32, (st.c + r.c) % 2 ^ 32,
    (st.d + r.d) % 2 ^ 32⟩

/-- Split a byte sequence into 64-byte chunks (fuel-indexed so that the
recursion is structural). -/
def chunksAux : Nat → List Nat → List (List Nat)
  | 0, _ => []
  | _ + 1, [] => []
  | fuel + 1, l => l.take 64 :: chunksAux fuel (l.drop 64)

/-- The 64-byte chunks of a byte sequence. -/
def md5Chunks (l : List Nat) : List (List Nat) :=
  chunksAux (l.length + 1) l

/-- Little-endian bytes of a number, to a given byte count. -/
def leBytes : Nat → Nat → List Nat
  | _, 0 => []
  | n, k + 1 => n % 256 :: leBytes (n / 256) k

/-- MD5 padding: a 0x80 byte, zero bytes up to 56 modulo 64, then the bit
length as eight little-endian bytes modulo 2 ^ 64. -/
def md5Pad (msg : List Nat) : List Nat :=
  let len := msg.length
  let zeros := (120 - (len + 1) % 64) % 64
  msg ++ 0x80 :: (List.replicate zeros 0 ++ leBytes (8 * len % 2 ^ 64) 8)

/-- The 16-byte MD5 digest of a byte sequence. -/
def md5Bytes (msg : List Nat) : List Nat :=
  let st := (md5Chunks (md5Pad msg)).foldl processChunk md5Init
  leBytes st.a 4 ++ leBytes st.b 4 ++ leBytes st.c 4 ++ leBytes st.d 4

/-- Lowercase hexadecimal digit characters. -/
def hexDigits : List Char :=
  "0123456789abcdef".data

/-- Two lowercase hex characters of one byte. -/
def byteToHex (b : Nat) : List Char :=
  [hexDigits.getD (b / 16) '0', hexDigits.getD (b % 16) '0']

/-- Lowercase hex digest string of a byte sequence: the hexdigest method
of Python hashlib md5. -/
def md5Hex (msg : List Nat) : String :=
  String.mk ((md5Bytes msg).map byteToHex).flatten

/-- Standard Base64 alphabet. -/
def b64Alphabet : List Char :=
  "ABCDEFGHIJKLMNOPQRSTUVWXYZabcdefghijklmnopqrstuvwxyz0123456789+/".data

/-- Character of one 6-bit group. -/
def b64Char (n : Nat) : Char :=
  b64Alphabet.getD n 'A'

/-- Standard Base64 encoding of a byte sequence, with padding. -/
def b64encode : List Nat → List Char
  | [] => []
  | [a] => [b64Char (a / 4), b64Char (a % 4 * 16), '=', '=']
  | [a, b] => [b64Char (a / 4), b64Char (a % 4 * 16 + b / 16), b64Char (b % 16 * 4), '=']
  | a :: b :: c :: rest =>
    b64Char (a / 4) :: b64Char (a % 4 * 16 + b / 16) :: b64Char (b % 16 * 4 + c / 64) ::
      b64Char (c % 64) :: b64encode rest

/-- Embedding of md5_and_base64encode: the MD5 hex digest of the text and
the Base64 encoding of the digest string itself (its UTF-8 character
bytes, not the raw 16 digest bytes). -/
def md5_and_base64encode (text : String) : String × String :=
  let md5_hash := md5Hex (strBytes text)
  let base64_encoded := String.mk (b64encode (strBytes md5_hash))
  (md5_hash, base64_encoded)

set_option maxRecDepth 8000 in
theorem md5_vector_empty :
    md5_and_base64encode "" =
      ("d41d8cd98f00b204e9800998ecf8427e",
        "ZDQxZDhjZDk4ZjAwYjIwNGU5ODAwOTk4ZWNmODQyN2U=") := by decide

set_option maxRecDepth 8000 in
theorem md5_vector_abc :
    md5_and_base64encode "abc" =
      ("900150983cd24fb0d6963f7d28e17f72",
        "OTAwMTUwOTgzY2QyNGZiMGQ2OTYzZjdkMjhlMTdmNzI=") := by decide

/-!
Data model and per-item processing (the body of
GitHubAPIClient.search_combined_patterns, lines 119-156 of the source):
an API item carries optional text matches whose present fragments become
the context lines; every context line is run through the extractor once
per label key, name before component, and non-empty extracted values are
accumulated in discovery order.
-/

/-- One entry of the text_matches array of an API item; the fragment key
may be absent. -/
structure TextMatch where
  fragment : Option String

/-- The fields of one item of the API response that the program reads:
path, repository full_name, html_url always present; line_number and name
read with a default; text_matches possibly absent. -/
structure ApiItem where
  path : String
  repository_full_name : String
  html_url : String
  line_number : Option Nat
  name : Option String
  text_matches : Option (List TextMatch)

/-- Embedding of the CodeSearchResult dataclass. -/
structure CodeSearchResult where
  file_path : String
  repository : String
  line_number : Nat
  matched_line : String
  context_lines : List String
  html_url : String
  extracted_values : List String
  extracted_names : List String
  extracted_components : List String

/-- Per-line accumulation step: extract the name value and then the
component value from the line, appending each non-empty extracted value to
the name (respectively component) sequence and its tagged form to the
combined sequence, exactly as the loop body does.  The emptiness test
mirrors Python truthiness (None and the empty string are both falsy). -/
def extractStep (acc : List String × List String × List String) (line : String) :
    List String × List String × List String :=
  let acc1 :=
    match extract_label_value line "app.kubernetes.io/name" with
    | some v => if v = "" then acc else (acc.1 ++ [v], acc.2.1, acc.2.2 ++ ["name:" ++ v])
    | none => acc
  match extract_label_value line "app.kubernetes.io/component" with
  | some v =>
    if v = "" then acc1 else (acc1.1, acc1.2.1 ++ [v], acc1.2.2 ++ ["component:" ++ v])
  | none => acc1

/-- Names, components and combined values extracted from the context
lines, in discovery order. -/
def extractTriple (lines : List String) : List String × List String × List String :=
  lines.foldl extractStep ([], [], [])

/-- Construction of one CodeSearchResult from one API item: context lines
are the present fragments of the text matches (empty when text_matches is
absent); line_number defaults to 0 and matched_line to the empty string. -/
def mkResult (item : ApiItem) : CodeSearchResult :=
  let context_lines := (item.text_matches.getD []).filterMap fun m => m.fragment
  let t := extractTriple context_lines
  { file_path := item.path
    repository := item.repository_full_name
    line_number := item.line_number.getD 0
    matched_line := item.name.getD ""
    context_lines := context_lines
    html_url := item.html_url
    extracted_values := t.2.2
    extracted_names := t.1
    extracted_components := t.2.1 }

/-!
Orchestrator (search_combined_patterns): one GET request with page size
the minimum of max_results and 100; on success the first max_results items
are mapped to results; on a requests exception the error is printed, with
an authentication hint when the status is 403, and the empty result list
is returned.  Network effects are embedded explicitly: the outcome of the
single request is an input, and console output is returned alongside the
results.
-/

/-- Query parameters of the one search request the program issues. -/
structure SearchRequest where
  q : String
  sort : String
  order : String
  per_page : Nat

/-- The request built for a query: sort indexed, order desc, page size the
minimum of max_results and 100. -/
def searchRequest (query : String) (max_results : Nat) : SearchRequest :=
  { q := query, sort := "indexed", order := "desc", per_page := min max_results 100 }

/-- All requests the orchestrator issues for one invocation: exactly the
one search request (the code performs a single session.get and never
fetches a further page). -/
def requestsIssued (query : String) (max_results : Nat) : List SearchRequest :=
  [searchRequest query max_results]

/-- Outcome of the single HTTP request: a successful response carrying the
items array (possibly empty), or a requests exception, remembering whether
its response carried status 403. -/
inductive ApiOutcome where
  | success (items : List ApiItem)
  | requestError (message : String) (status403 : Bool)

/-- Embedding of search_combined_patterns: on success, map the first
max_results items to results and report the count; on a requests
exception, print the error (plus the authentication note when the status
is 403) and return no results.  The first component is the returned result
list, the second the console messages printed. -/
def search_combined_patterns (outcome : ApiOutcome) (max_results : Nat) :
    List CodeSearchResult × List String :=
  match outcome with
  | .success items =>
    let results := (items.take max_results).map mkResult
    (results, ["Found " ++ toString results.length ++ " matches for Kubernetes labels"])
  | .requestError message status403 =>
    ([], ("Error searching code: " ++ message) ::
      if status403 then
        ["Note: Code search requires authentication. Make sure GITHUB_TOKEN is set."]
      else [])

/-!
Aggregation and tabular export (the tab_output branch of search, lines
259-295 of the source): label entries are one record per extracted value
occurrence, names of a result before its components, tagged with the
repository and URL of the result; they are sorted by the key
(type, value, repository) with Python string comparison (code-point
lexicographic), by a stable sort; rows carry the two fingerprints of the
value.  A stable sort is extensionally determined by the key preorder, so
the stable insertion sort below is the same function as the stable sort of
Python.
-/

/-- One label entry of the tabular export: the type tag is the string
"name" or "component", exactly as in the source dictionaries. -/
structure LabelEntry where
  type : String
  value : String
  repository : String
  url : String
deriving DecidableEq

/-- Flatten the results into label entries: for each result, one entry per
extracted name, then one per extracted component, tagged with the
repository and URL of the result. -/
def buildLabelEntries (results : List CodeSearchResult) : List LabelEntry :=
  results.foldl
    (fun acc r =>
      (acc ++ r.extracted_names.map fun n => ⟨"name", n, r.repository, r.html_url⟩) ++
        r.extracted_components.map fun c => ⟨"component", c, r.repository, r.html_url⟩)
    []

/-- Strict code-point lexicographic comparison of character sequences:
Python string comparison. -/
def charsLt : List Char → List Char → Bool
  | [], [] => false
  | [], _ :: _ => true
  | _ :: _, [] => false
  | a :: as, b :: bs =>
    if a.toNat < b.toNat then true
    else if b.toNat < a.toNat then false
    else charsLt as bs

/-- Non-strict ordering of entries by the sort key (type, value,
repository), the tuple comparison of the Python sort key. -/
def entryLe (a b : LabelEntry) : Bool :=
  charsLt a.type.data b.type.data ||
    (a.type == b.type &&
      (charsLt a.value.data b.value.data ||
        (a.value == b.value && !charsLt b.repository.data a.repository.data)))

/-- Embedding of the sort of the label entries: stable sort, ascending by
(type, value, repository). -/
def sortEntries (l : List LabelEntry) : List LabelEntry :=
  List.insertionSort (fun a b => entryLe a b = true) l

/-- Header line of the tab-separated output file. -/
def tsvHeader : String :=
  "Label_Type\tLabel_Value\tRepository\tURL\tMD5_Hash\tBase64_Encoded_MD5\n"

/-- One line of the tab-separated output file: type, value, repository,
URL and the two fingerprints of the value, tab-separated. -/
def tsvRow (e : LabelEntry) : String :=
  e.type ++ "\t" ++ e.value ++ "\t" ++ e.repository ++ "\t" ++ e.url ++ "\t" ++
    (md5_and_base64encode e.value).1 ++ "\t" ++ (md5_and_base64encode e.value).2 ++ "\n"

/-- The lines written to the tab-separated output file: the header, then
one row per entry of the sorted entry list. -/
def tabOutputLines (entries : List LabelEntry) : List String :=
  tsvHeader :: (sortEntries entries).map tsvRow

/-!
Lemmas about the extractor.
-/

/-- Characters of the quote class are not whitespace. -/
theorem quote_not_space {c : Char} (h : isQuoteChar c = true) : isSpaceChar c = false := by
  simp only [isQuoteChar, Bool.or_eq_true, decide_eq_true_eq] at h
  rcases h with h | h <;> subst h <;> decide

/-- Characters of the capture class are neither quotes nor whitespace. -/
theorem valueChar_not_space {c : Char} (h : isValueChar c = true) : isSpaceChar c = false := by
  simp only [isValueChar, Bool.and_eq_true, Bool.not_eq_true'] at h
  exact h.2

/-- Characters of the capture class are not quotes. -/
theorem valueChar_not_quote {c : Char} (h : isValueChar c = true) : isQuoteChar c = false := by
  simp only [isValueChar, Bool.and_eq_true, Bool.not_eq_true'] at h
  exact h.1

/-- The literal pattern matches at the front of any text that begins with
it: case-insensitive matching is reflexive. -/
theorem stripKey_append_self (pat rest : List Char) :
    stripKey (pat ++ rest) pat = some rest := by
  induction pat with
  | nil => cases rest <;> rfl
  | cons c cs ih => simp [stripKey, charIEq, ih]

/-- The literal pattern never matches a shorter text. -/
theorem stripKey_none_of_lt (pat l : List Char) (h : l.length < pat.length) :
    stripKey l pat = none := by
  induction pat generalizing l with
  | nil => simp at h
  | cons k ks ih =>
    cases l with
    | nil => rfl
    | cons c cs =>
      simp only [stripKey]
      rw [ih cs (by simp at h; omega)]
      split <;> rfl

/-- Every character of the greedy capture is in the capture class. -/
theorem captureRun_all_value (l : List Char) :
    ∀ c ∈ (captureRun l).1, isValueChar c = true := by
  induction l with
  | nil => intro c hc; simp [captureRun] at hc
  | cons a as ih =>
    intro c hc
    by_cases h : isValueChar a = true
    · simp only [captureRun, h, if_pos] at hc
      rcases List.mem_cons.mp hc with rfl | hc
      · exact h
      · exact ih c hc
    · simp only [captureRun, h, if_neg] at hc
      simp at hc

/-- The greedy capture takes exactly a run of capture-class characters,
stopping at the first character outside the class. -/
theorem captureRun_run (v rest : List Char) (hv : ∀ c ∈ v, isValueChar c = true)
    (hrest : ∀ c, rest.head? = some c → isValueChar c = false) :
    captureRun (v ++ rest) = (v, rest) := by
  induction v with
  | nil =>
    cases rest with
    | nil => rfl
    | cons c cs =>
      have := hrest c rfl
      simp [captureRun, this]
  | cons a as ih =>
    have ha : isValueChar a = true := hv a (List.mem_cons_self a as)
    have has : ∀ c ∈ as, isValueChar c = true := fun c hc => hv c (List.mem_cons_of_mem a hc)
    simp [captureRun, ha, ih has]

/-- Dropping whitespace skips over an all-whitespace block. -/
theorem dropWhile_space_append (w l : List Char) (hw : ∀ c ∈ w, isSpaceChar c = true) :
    List.dropWhile isSpaceChar (w ++ l) = List.dropWhile isSpaceChar l := by
  induction w with
  | nil => rfl
  | cons a as ih =>
    have ha := hw a (List.mem_cons_self a as)
    simp only [List.cons_append, List.dropWhile_cons, ha, if_pos]
    exact ih fun c hc => hw c (List.mem_cons_of_mem a hc)

/-- The value matcher ignores a leading all-whitespace block. -/
theorem matchValue_space (w l : List Char) (hw : ∀ c ∈ w, isSpaceChar c = true) :
    matchValue (w ++ l) = matchValue l := by
  unfold matchValue
  rw [dropWhile_space_append w l hw]

/-- The value matcher on a quoted well-formed value captures it whole. -/
theorem matchValue_quoted (q : Char) (v rest : List Char) (hq : isQuoteChar q = true)
    (hne : v ≠ []) (hv : ∀ c ∈ v, isValueChar c = true)
    (hrest : ∀ c, rest.head? = some c → isValueChar c = false) :
    matchValue (q :: (v ++ rest)) = some v := by
  unfold matchValue
  rw [List.dropWhile_cons]
  rw [quote_not_space hq]
  simp only [Bool.false_eq_true, if_false, hq, if_pos]
  cases v with
  | nil => exact absurd rfl hne
  | cons a as =>
    have ha : isValueChar a = true := hv a (List.mem_cons_self a as)
    simp only [List.cons_append, ha, if_pos]
    rw [show a :: (as ++ rest) = (a :: as) ++ rest from rfl, captureRun_run (a :: as) rest hv hrest]

/-- The value matcher on an unquoted well-formed value captures it whole. -/
theorem matchValue_unquoted (v rest : List Char) (hne : v ≠ [])
    (hv : ∀ c ∈ v, isValueChar c = true)
    (hrest : ∀ c, rest.head? = some c → isValueChar c = false) :
    matchValue (v ++ rest) = some v := by
  cases v with
  | nil => exact absurd rfl hne
  | cons a as =>
    have ha : isValueChar a = true := hv a (List.mem_cons_self a as)
    unfold matchValue
    rw [List.cons_append, List.dropWhile_cons, valueChar_not_space ha]
    simp only [Bool.false_eq_true, if_false, valueChar_not_quote ha, ha, if_pos]
    rw [show a :: (as ++ rest) = (a :: as) ++ rest from rfl, captureRun_run (a :: as) rest hv hrest]

/-- A successful match at the current position is the search result. -/
theorem searchAux_of_tryMatch (pat txt v : List Char) (h : tryMatch pat txt = some v) :
    searchAux pat txt = some v := by
  cases txt with
  | nil => exact h
  | cons c cs => simp [searchAux, h]

/-- The search returns the match of the leftmost matching position. -/
theorem searchAux_leftmost (pat : List Char) (txt : List Char) (i : Nat) (v : List Char)
    (hi : tryMatch pat (txt.drop i) = some v)
    (hmin : ∀ j, j < i → tryMatch pat (txt.drop j) = none) :
    searchAux pat txt = some v := by
  induction txt generalizing i with
  | nil =>
    rw [List.drop_nil] at hi
    exact hi
  | cons c cs ih =>
    cases i with
    | zero => exact searchAux_of_tryMatch pat (c :: cs) v hi
    | succ i =>
      have h0 := hmin 0 (Nat.succ_pos i)
      rw [List.drop_zero] at h0
      simp only [searchAux, h0]
      rw [List.drop_succ_cons] at hi
      exact ih i hi fun j hj => by
        have := hmin (j + 1) (Nat.succ_lt_succ hj)
        rwa [List.drop_succ_cons] at this

/-- A successful value match directly after the key and colon at position
zero determines the search result. -/
theorem searchAux_key_head (K : String) (suffix v : List Char)
    (h : matchValue suffix = some v) :
    searchAux (K.data ++ [':']) (K.data ++ ':' :: suffix) = some v := by
  apply searchAux_of_tryMatch
  unfold tryMatch
  rw [show K.data ++ ':' :: suffix = (K.data ++ [':']) ++ suffix by simp]
  rw [stripKey_append_self]
  exact h

/-- Claim C1: for every literal label key K and every non-empty value V of
non-quote non-whitespace characters, the extractor applied to the text
built from K, a colon, a space and V returns V, whether V is wrapped in
double quotes, in single quotes, or unquoted. -/
theorem extract_literal_key_wellformed_value (K V : String) (hne : V.data ≠ [])
    (hv : ∀ c ∈ V.data, isValueChar c = true) :
    extract_label_value (K ++ ": \"" ++ V ++ "\"") K = some V ∧
    extract_label_value (K ++ ": '" ++ V ++ "'") K = some V ∧
    extract_label_value (K ++ ": " ++ V) K = some V := by
  have hq : ∀ c, (['"'] : List Char).head? = some c → isValueChar c = false := by
    intro c hc
    simp only [List.head?] at hc
    cases hc
    decide
  have hq2 : ∀ c, (['\x27'] : List Char).head? = some c → isValueChar c = false := by
    intro c hc
    simp only [List.head?] at hc
    cases hc
    decide
  have hnil : ∀ c, ([] : List Char).head? = some c → isValueChar c = false := by
    intro c hc
    simp at hc
  refine ⟨?_, ?_, ?_⟩
  · have hd : (K ++ ": \"" ++ V ++ "\"").data =
        K.data ++ ':' :: (' ' :: ('"' :: (V.data ++ ['"']))) := by
      simp [String.data_append]
    unfold extract_label_value
    rw [hd, searchAux_key_head K _ V.data ?_]
    · rfl
    · rw [show (' ' :: ('"' :: (V.data ++ ['"']))) = [' '] ++ '"' :: (V.data ++ ['"']) from rfl]
      rw [matchValue_space _ _ (by intro c hc; simp at hc; subst hc; decide)]
      exact matchValue_quoted '"' V.data ['"'] (by decide) hne hv hq
  · have hd : (K ++ ": '" ++ V ++ "'").data =
        K.data ++ ':' :: (' ' :: ('\x27' :: (V.data ++ ['\x27']))) := by
      simp [String.data_append]
    unfold extract_label_value
    rw [hd, searchAux_key_head K _ V.data ?_]
    · rfl
    · rw [show (' ' :: ('\x27' :: (V.data ++ ['\x27']))) =
          [' '] ++ '\x27' :: (V.data ++ ['\x27']) from rfl]
      rw [matchValue_space _ _ (by intro c hc; simp at hc; subst hc; decide)]
      exact matchValue_quoted '\x27' V.data ['\x27'] (by decide) hne hv hq2
  · have hd : (K ++ ": " ++ V).data = K.data ++ ':' :: (' ' :: V.data) := by
      simp [String.data_append]
    unfold extract_label_value
    rw [hd, searchAux_key_head K _ V.data ?_]
    · rfl
    · rw [show (' ' :: V.data) = [' '] ++ V.data from rfl]
      rw [matchValue_space _ _ (by intro c hc; simp at hc; subst hc; decide)]
      simpa using matchValue_unquoted V.data [] hne hv hnil

theorem extract_literal_key_wellformed_value_witness :
    extract_label_value "app.kubernetes.io/name: \"nginx\"" "app.kubernetes.io/name" =
        some "nginx" ∧
    extract_label_value "app.kubernetes.io/name: 'nginx'" "app.kubernetes.io/name" =
        some "nginx" ∧
    extract_label_value "app.kubernetes.io/name: nginx" "app.kubernetes.io/name" =
        some "nginx" :=
  extract_literal_key_wellformed_value "app.kubernetes.io/name" "nginx" (by decide)
    (by decide)

/-- Claim C5: the extractor returns the captured value of the leftmost
occurrence by character offset: if the pattern matches at offset i with
value v and fails at every smaller offset, the extractor returns v; the
first match wins. -/
theorem extract_leftmost_occurrence (text key : String) (i : Nat) (v : List Char)
    (hi : tryMatch (key.data ++ [':']) (text.data.drop i) = some v)
    (hmin : ∀ j, j < i → tryMatch (key.data ++ [':']) (text.data.drop j) = none) :
    extract_label_value text key = some (String.mk v) := by
  unfold extract_label_value
  rw [searchAux_leftmost (key.data ++ [':']) text.data i v hi hmin]
  rfl

theorem extract_leftmost_occurrence_witness :
    extract_label_value "key: a\nkey: b" "key" = some "a" :=
  extract_leftmost_occurrence "key: a\nkey: b" "key" 0 "a".data (by decide)
    (fun j hj => absurd hj (Nat.not_lt_zero j))

/-- A search that fails at every start position fails. -/
theorem searchAux_none (pat : List Char) (txt : List Char)
    (h : ∀ i, tryMatch pat (txt.drop i) = none) :
    searchAux pat txt = none := by
  induction txt with
  | nil => exact h 0
  | cons c cs ih =>
    have h0 := h 0
    rw [List.drop_zero] at h0
    simp only [searchAux, h0]
    exact ih fun i => by
      have := h (i + 1)
      rwa [List.drop_succ_cons] at this

/-- Claim C6: the extractor returns nothing when the key is present
without a well-formed value: on the text consisting of the key and a
colon alone it returns none for every key, and in particular on the text
made of the literal word key and a colon. -/
theorem extract_key_no_value_none :
    extract_label_value "key:" "key" = none ∧
    ∀ key : String, extract_label_value (key ++ ":") key = none := by
  constructor
  · decide
  · intro key
    unfold extract_label_value
    rw [searchAux_none]
    · rfl
    · intro i
      have hd : (key ++ ":").data = key.data ++ [':'] := by
        simp [String.data_append]
      rw [hd]
      cases i with
      | zero =>
        rw [List.drop_zero]
        unfold tryMatch
        have hs : stripKey (key.data ++ [':']) (key.data ++ [':']) = some [] := by
          have := stripKey_append_self (key.data ++ [':']) []
          simpa using this
        rw [hs]
        rfl
      | succ i =>
        unfold tryMatch
        rw [stripKey_none_of_lt]
        rw [List.length_drop, List.length_append]
        simp
        omega

/-- Claim C9: the whitespace the extractor skips after the colon includes
newlines: for any all-whitespace block w and any non-empty token v of
non-quote non-whitespace characters followed by a non-token character,
the extractor on key, colon, w, v returns v, even when w spans lines. -/
theorem extract_skips_whitespace_and_newlines (key w v rest : String)
    (hw : ∀ c ∈ w.data, isSpaceChar c = true)
    (hne : v.data ≠ [])
    (hv : ∀ c ∈ v.data, isValueChar c = true)
    (hrest : ∀ c, rest.data.head? = some c → isValueChar c = false) :
    extract_label_value (key ++ ":" ++ w ++ v ++ rest) key = some v := by
  have hd : (key ++ ":" ++ w ++ v ++ rest).data =
      key.data ++ ':' :: (w.data ++ (v.data ++ rest.data)) := by
    simp [String.data_append]
  unfold extract_label_value
  rw [hd, searchAux_key_head key _ v.data ?_]
  · rfl
  · rw [matchValue_space w.data _ hw]
    exact matchValue_unquoted v.data rest.data hne hv hrest

theorem extract_skips_whitespace_and_newlines_witness :
    extract_label_value "key:\n  other: x" "key" = some "other:" :=
  extract_skips_whitespace_and_newlines "key" "\n  " "other:" " x" (by decide) (by decide)
    (by decide) (by intro c hc; simp at hc; subst hc; decide)

/-- A successful value match yields a non-empty capture of capture-class
characters only. -/
theorem matchValue_some_value (rest v : List Char) (h : matchValue rest = some v) :
    v ≠ [] ∧ ∀ c ∈ v, isValueChar c = true := by
  unfold matchValue at h
  cases hd : rest.dropWhile isSpaceChar with
  | nil => rw [hd] at h; simp at h
  | cons c cs =>
    rw [hd] at h
    by_cases hq : isQuoteChar c = true
    · simp only [hq, if_pos] at h
      cases cs with
      | nil => simp at h
      | cons d ds =>
        by_cases hdv : isValueChar d = true
        · simp only [hdv, if_pos, Option.some_inj] at h
          subst h
          constructor
          · simp [captureRun, hdv]
          · exact captureRun_all_value (d :: ds)
        · simp [hdv] at h
    · simp only [hq, if_neg, Bool.false_eq_true, if_false] at h
      by_cases hcv : isValueChar c = true
      · simp only [hcv, if_pos, Option.some_inj] at h
        subst h
        constructor
        · simp [captureRun, hcv]
        · exact captureRun_all_value (c :: cs)
      · simp [hcv] at h

/-- A successful pattern attempt yields a non-empty capture of
capture-class characters only. -/
theorem tryMatch_some_value (pat txt v : List Char) (h : tryMatch pat txt = some v) :
    v ≠ [] ∧ ∀ c ∈ v, isValueChar c = true := by
  unfold tryMatch at h
  cases hs : stripKey txt pat with
  | none => rw [hs] at h; simp at h
  | some rest =>
    rw [hs] at h
    exact matchValue_some_value rest v h

/-- A successful search yields a non-empty capture of capture-class
characters only. -/
theorem searchAux_some_value (pat txt v : List Char) (h : searchAux pat txt = some v) :
    v ≠ [] ∧ ∀ c ∈ v, isValueChar c = true := by
  induction txt with
  | nil => exact tryMatch_some_value pat [] v h
  | cons c cs ih =>
    simp only [searchAux] at h
    cases ht : tryMatch pat (c :: cs) with
    | some w =>
      rw [ht] at h
      simp only [Option.some_inj] at h
      subst h
      exact tryMatch_some_value pat (c :: cs) w ht
    | none =>
      rw [ht] at h
      exact ih h

/-- Every value the extractor returns is non-empty and contains only
characters that are neither quotes nor whitespace. -/
theorem extract_some_value (text key v : String)
    (h : extract_label_value text key = some v) :
    v.data ≠ [] ∧ ∀ c ∈ v.data, isValueChar c = true := by
  unfold extract_label_value at h
  cases hs : searchAux (key.data ++ [':']) text.data with
  | none => rw [hs] at h; simp at h
  | some w =>
    rw [hs] at h
    have h2 : String.mk w = v := by simpa using h
    subst h2
    exact searchAux_some_value (key.data ++ [':']) text.data w hs



/-- Membership after one extraction step: a name or component in the
accumulator after processing a line was already there, or is a value the
extractor returned for that line. -/
theorem extractStep_mem (ns cs vs : List String) (line v : String)
    (hv : v ∈ (extractStep (ns, cs, vs) line).1 ∨ v ∈ (extractStep (ns, cs, vs) line).2.1) :
    (v ∈ ns ∨ v ∈ cs) ∨
      extract_label_value line "app.kubernetes.io/name" = some v ∨
      extract_label_value line "app.kubernetes.io/component" = some v := by
  unfold extractStep at hv
  cases hn : extract_label_value line "app.kubernetes.io/name" with
  | none =>
    cases hc : extract_label_value line "app.kubernetes.io/component" with
    | none =>
      rw [hn, hc] at hv
      exact Or.inl hv
    | some w =>
      rw [hn, hc] at hv
      dsimp only at hv
      by_cases hw : w = ""
      · rw [if_pos hw] at hv
        exact Or.inl hv
      · rw [if_neg hw] at hv
        dsimp only at hv
        simp only [List.mem_append, List.mem_singleton] at hv
        rcases hv with hv | hv | rfl
        · exact Or.inl (Or.inl hv)
        · exact Or.inl (Or.inr hv)
        · exact Or.inr (Or.inr rfl)
  | some w =>
    cases hc : extract_label_value line "app.kubernetes.io/component" with
    | none =>
      rw [hn, hc] at hv
      dsimp only at hv
      by_cases hw : w = ""
      · rw [if_pos hw] at hv
        exact Or.inl hv
      · rw [if_neg hw] at hv
        dsimp only at hv
        simp only [List.mem_append, List.mem_singleton] at hv
        rcases hv with (hv | rfl) | hv
        · exact Or.inl (Or.inl hv)
        · exact Or.inr (Or.inl rfl)
        · exact Or.inl (Or.inr hv)
    | some u =>
      rw [hn, hc] at hv
      dsimp only at hv
      by_cases hw : w = ""
      · rw [if_pos hw] at hv
        by_cases hu : u = ""
        · rw [if_pos hu] at hv
          exact Or.inl hv
        · rw [if_neg hu] at hv
          dsimp only at hv
          simp only [List.mem_append, List.mem_singleton] at hv
          rcases hv with hv | hv | rfl
          · exact Or.inl (Or.inl hv)
          · exact Or.inl (Or.inr hv)
          · exact Or.inr (Or.inr rfl)
      · rw [if_neg hw] at hv
        dsimp only at hv
        by_cases hu : u = ""
        · rw [if_pos hu] at hv
          simp only [List.mem_append, List.mem_singleton] at hv
          rcases hv with (hv | rfl) | hv
          · exact Or.inl (Or.inl hv)
          · exact Or.inr (Or.inl rfl)
          · exact Or.inl (Or.inr hv)
        · rw [if_neg hu] at hv
          simp only [List.mem_append, List.mem_singleton] at hv
          rcases hv with (hv | rfl) | hv | rfl
          · exact Or.inl (Or.inl hv)
          · exact Or.inr (Or.inl rfl)
          · exact Or.inl (Or.inr hv)
          · exact Or.inr (Or.inr rfl)

/-- Membership across the whole extraction fold: every name or component
accumulated over the context lines was in the initial accumulator or is a
value the extractor returned for one of the lines. -/
theorem extract_fold_mem (lines : List String)
    (acc : List String × List String × List String) (v : String)
    (hv : v ∈ (lines.foldl extractStep acc).1 ∨ v ∈ (lines.foldl extractStep acc).2.1) :
    (v ∈ acc.1 ∨ v ∈ acc.2.1) ∨
      ∃ line ∈ lines,
        extract_label_value line "app.kubernetes.io/name" = some v ∨
        extract_label_value line "app.kubernetes.io/component" = some v := by
  induction lines generalizing acc with
  | nil => exact Or.inl hv
  | cons line rest ih =>
    rw [List.foldl_cons] at hv
    rcases ih (extractStep acc line) hv with hstep | ⟨l, hl, hex⟩
    · rcases extractStep_mem acc.1 acc.2.1 acc.2.2 line v hstep with hold | hex
      · exact Or.inl hold
      · exact Or.inr ⟨line, List.mem_cons_self line rest, hex⟩
    · exact Or.inr ⟨l, List.mem_cons_of_mem line hl, hex⟩

/-- Every extracted name or component of a constructed result is a value
the extractor returned for one of its context lines. -/
theorem mkResult_mem (item : ApiItem) (v : String)
    (hv : v ∈ (mkResult item).extracted_names ∨ v ∈ (mkResult item).extracted_components) :
    ∃ line ∈ (mkResult item).context_lines,
      extract_label_value line "app.kubernetes.io/name" = some v ∨
      extract_label_value line "app.kubernetes.io/component" = some v := by
  have hv2 : v ∈ (extractTriple ((item.text_matches.getD []).filterMap fun m =>
        m.fragment)).1 ∨
      v ∈ (extractTriple ((item.text_matches.getD []).filterMap fun m => m.fragment)).2.1 := hv
  unfold extractTriple at hv2
  rcases extract_fold_mem ((item.text_matches.getD []).filterMap fun m => m.fragment)
      ([], [], []) v hv2 with h | h
  · simp at h
  · exact h

/-- Membership in the flattening fold that builds the label entries. -/
theorem buildLabelEntries_fold_mem (results : List CodeSearchResult)
    (acc : List LabelEntry) (e : LabelEntry)
    (he : e ∈ results.foldl
      (fun acc r =>
        (acc ++ r.extracted_names.map fun n => ⟨"name", n, r.repository, r.html_url⟩) ++
          r.extracted_components.map fun c => ⟨"component", c, r.repository, r.html_url⟩)
      acc) :
    e ∈ acc ∨ ∃ r ∈ results,
      e.value ∈ r.extracted_names ∨ e.value ∈ r.extracted_components := by
  induction results generalizing acc with
  | nil => exact Or.inl he
  | cons r rs ih =>
    rw [List.foldl_cons] at he
    rcases ih _ he with hacc | ⟨s, hs, hmem⟩
    · simp only [List.mem_append, List.mem_map] at hacc
      rcases hacc with (h | ⟨n, hn, rfl⟩) | ⟨c, hc, rfl⟩
      · exact Or.inl h
      · exact Or.inr ⟨r, List.mem_cons_self r rs, Or.inl hn⟩
      · exact Or.inr ⟨r, List.mem_cons_self r rs, Or.inr hc⟩
    · exact Or.inr ⟨s, List.mem_cons_of_mem r hs, hmem⟩

/-- Every label entry flattened from the results takes its value from the
extracted names or components of one of the results. -/
theorem buildLabelEntries_mem (results : List CodeSearchResult) (e : LabelEntry)
    (he : e ∈ buildLabelEntries results) :
    ∃ r ∈ results, e.value ∈ r.extracted_names ∨ e.value ∈ r.extracted_components := by
  rcases buildLabelEntries_fold_mem results [] e he with h | h
  · simp at h
  · exact h

/-- Sorting the entries neither adds nor removes entries. -/
theorem mem_sortEntries (l : List LabelEntry) (e : LabelEntry) (he : e ∈ sortEntries l) :
    e ∈ l :=
  (List.perm_insertionSort (fun a b => entryLe a b = true) l).mem_iff.mp he

/-- Capture-class characters are not space, tab, newline or a quote. -/
theorem valueChar_ne (c : Char) (h : isValueChar c = true) :
    c ≠ ' ' ∧ c ≠ '\t' ∧ c ≠ '\n' ∧ c ≠ '"' ∧ c ≠ '\x27' := by
  refine ⟨?_, ?_, ?_, ?_, ?_⟩ <;> rintro rfl <;> exact absurd h (by decide)

/-- Claim C10: every value the extractor returns is a non-empty string
containing no space, tab, newline, double quote or single quote; hence
every value field of the sorted label entries written to the tab-separated
export is free of tabs and newlines. -/
theorem extract_values_no_whitespace :
    (∀ text key v : String, extract_label_value text key = some v →
      v.data ≠ [] ∧ ∀ c ∈ v.data,
        c ≠ ' ' ∧ c ≠ '\t' ∧ c ≠ '\n' ∧ c ≠ '"' ∧ c ≠ '\x27') ∧
    ∀ (outcome : ApiOutcome) (max_results : Nat) (e : LabelEntry),
      e ∈ sortEntries (buildLabelEntries (search_combined_patterns outcome max_results).1) →
        ∀ c ∈ e.value.data, c ≠ '\t' ∧ c ≠ '\n' := by
  constructor
  · intro text key v h
    obtain ⟨hne, hall⟩ := extract_some_value text key v h
    exact ⟨hne, fun c hc => valueChar_ne c (hall c hc)⟩
  · intro outcome max_results e he c hc
    have he2 := mem_sortEntries _ e he
    obtain ⟨r, hr, hval⟩ := buildLabelEntries_mem _ e he2
    cases outcome with
    | requestError message status403 =>
      have : (search_combined_patterns (.requestError message status403) max_results).1 =
          [] := rfl
      rw [this] at hr
      simp at hr
    | success items =>
      have hres : (search_combined_patterns (.success items) max_results).1 =
          (items.take max_results).map mkResult := rfl
      rw [hres] at hr
      obtain ⟨item, _, rfl⟩ := List.mem_map.mp hr
      obtain ⟨line, _, hex⟩ := mkResult_mem item e.value hval
      have hv : ∀ d ∈ e.value.data, isValueChar d = true := by
        rcases hex with h | h
        · exact (extract_some_value line "app.kubernetes.io/name" e.value h).2
        · exact (extract_some_value line "app.kubernetes.io/component" e.value h).2
      have := valueChar_ne c (hv c hc)
      exact ⟨this.2.1, this.2.2.1⟩

/-- One extraction step preserves the length invariant: the combined value
sequence grows by exactly as much as the name and component sequences
together. -/
theorem extractStep_length (ns cs vs : List String) (line : String)
    (h : vs.length = ns.length + cs.length) :
    (extractStep (ns, cs, vs) line).2.2.length =
      (extractStep (ns, cs, vs) line).1.length + (extractStep (ns, cs, vs) line).2.1.length := by
  unfold extractStep
  cases extract_label_value line "app.kubernetes.io/name" with
  | none =>
    cases extract_label_value line "app.kubernetes.io/component" with
    | none => exact h
    | some u =>
      dsimp only
      by_cases hu : u = "" <;> (simp [hu, List.length_append, h]; try omega)
  | some w =>
    cases extract_label_value line "app.kubernetes.io/component" with
    | none =>
      dsimp only
      by_cases hw : w = "" <;> (simp [hw, List.length_append, h]; try omega)
    | some u =>
      dsimp only
      by_cases hw : w = "" <;> by_cases hu : u = "" <;>
        simp [hw, hu, List.length_append, h] <;> omega

/-- The length invariant holds across the whole extraction fold. -/
theorem extract_fold_length (lines : List String)
    (acc : List String × List String × List String)
    (hacc : acc.2.2.length = acc.1.length + acc.2.1.length) :
    (lines.foldl extractStep acc).2.2.length =
      (lines.foldl extractStep acc).1.length + (lines.foldl extractStep acc).2.1.length := by
  induction lines generalizing acc with
  | nil => exact hacc
  | cons line rest ih =>
    rw [List.foldl_cons]
    exact ih (extractStep acc line) (extractStep_length acc.1 acc.2.1 acc.2.2 line hacc)

/-- Claim C4: for every result the orchestrator constructs from an API
item, the combined value sequence is exactly as long as the name and
component sequences together, and a result with no context lines has all
three extraction sequences empty. -/
theorem result_extraction_invariant (item : ApiItem) :
    (mkResult item).extracted_values.length =
      (mkResult item).extracted_names.length + (mkResult item).extracted_components.length ∧
    ((mkResult item).context_lines = [] →
      (mkResult item).extracted_values = [] ∧ (mkResult item).extracted_names = [] ∧
        (mkResult item).extracted_components = []) := by
  constructor
  · exact extract_fold_length _ ([], [], []) rfl
  · intro h
    have hv : (mkResult item).extracted_values =
        (extractTriple (mkResult item).context_lines).2.2 := rfl
    have hn : (mkResult item).extracted_names =
        (extractTriple (mkResult item).context_lines).1 := rfl
    have hc : (mkResult item).extracted_components =
        (extractTriple (mkResult item).context_lines).2.1 := rfl
    rw [hv, hn, hc, h]
    exact ⟨rfl, rfl, rfl⟩

theorem result_extraction_invariant_witness :
    ((mkResult ⟨"p", "o/r", "u", none, none, none⟩).extracted_values.length =
      (mkResult ⟨"p", "o/r", "u", none, none, none⟩).extracted_names.length +
        (mkResult ⟨"p", "o/r", "u", none, none, none⟩).extracted_components.length) ∧
    ((mkResult ⟨"p", "o/r", "u", none, none, none⟩).extracted_values = [] ∧
      (mkResult ⟨"p", "o/r", "u", none, none, none⟩).extracted_names = [] ∧
      (mkResult ⟨"p", "o/r", "u", none, none, none⟩).extracted_components = []) :=
  ⟨(result_extraction_invariant ⟨"p", "o/r", "u", none, none, none⟩).1,
    (result_extraction_invariant ⟨"p", "o/r", "u", none, none, none⟩).2 rfl⟩

/-- Claim C7: on a transport or HTTP failure of the single search request
the orchestrator reports the failure to the operator and returns the empty
result list; a failed request yields zero results, never a partial page. -/
theorem search_failure_reports_and_empty (message : String) (status403 : Bool)
    (max_results : Nat) :
    (search_combined_patterns (.requestError message status403) max_results).1 = [] ∧
    (search_combined_patterns (.requestError message status403) max_results).2.head? =
      some ("Error searching code: " ++ message) ∧
    (search_combined_patterns (.requestError message status403) max_results).2 ≠ [] :=
  ⟨rfl, rfl, List.cons_ne_nil _ _⟩

/-- Claim C8: the orchestrator issues exactly one request, its page size
is the minimum of max_results and 100, and when the server honours the
requested page size the returned result list never exceeds that minimum,
even when max_results exceeds 100. -/
theorem single_request_page_cap (query : String) (max_results : Nat) (items : List ApiItem)
    (hitems : items.length ≤ (searchRequest query max_results).per_page) :
    (requestsIssued query max_results).length = 1 ∧
    (searchRequest query max_results).per_page = min max_results 100 ∧
    (search_combined_patterns (.success items) max_results).1.length ≤
      min max_results 100 := by
  refine ⟨rfl, rfl, ?_⟩
  have hres : (search_combined_patterns (.success items) max_results).1 =
      (items.take max_results).map mkResult := rfl
  rw [hres, List.length_map, List.length_take]
  simp only [searchRequest] at hitems
  omega

theorem single_request_page_cap_witness :
    (requestsIssued "\"app.kubernetes.io/name\" OR \"app.kubernetes.io/component\"" 250).length
        = 1 ∧
    (searchRequest "\"app.kubernetes.io/name\" OR \"app.kubernetes.io/component\""
        250).per_page = min 250 100 ∧
    (search_combined_patterns
        (.success [⟨"p", "o/r", "u", none, none, none⟩]) 250).1.length ≤ min 250 100 :=
  single_request_page_cap "\"app.kubernetes.io/name\" OR \"app.kubernetes.io/component\"" 250
    [⟨"p", "o/r", "u", none, none, none⟩] (by decide)

/-!
Order lemmas for the sort of the tabular export: charsLt is a strict
total order on character sequences (the Python string order), and entryLe,
the non-strict tuple order on (type, value, repository), is transitive and
total, so the stable insertion sort produces a sorted permutation.
-/

/-- Strict character-sequence comparison is irreflexive. -/
theorem charsLt_irrefl (l : List Char) : charsLt l l = false := by
  induction l with
  | nil => rfl
  | cons c cs ih => simp [charsLt, ih]

/-- Strict character-sequence comparison is transitive. -/
theorem charsLt_trans (x y z : List Char) (hxy : charsLt x y = true)
    (hyz : charsLt y z = true) : charsLt x z = true := by
  induction x generalizing y z with
  | nil =>
    cases z with
    | nil =>
      cases y with
      | nil => exact absurd hxy (by simp [charsLt])
      | cons b bs => exact absurd hyz (by simp [charsLt])
    | cons c cs => rfl
  | cons a as ih =>
    cases y with
    | nil => exact absurd hxy (by simp [charsLt])
    | cons b bs =>
      cases z with
      | nil => exact absurd hyz (by simp [charsLt])
      | cons c cs =>
        simp only [charsLt] at hxy hyz ⊢
        rcases Nat.lt_trichotomy a.toNat b.toNat with hab | hab | hab
        · rcases Nat.lt_trichotomy b.toNat c.toNat with hbc | hbc | hbc
          · simp [Nat.lt_trans hab hbc]
          · simp [hbc ▸ hab]
          · rw [if_neg (by omega), if_pos (by omega)] at hyz
            exact absurd hyz (by simp)
        · rw [if_neg (by omega), if_neg (by omega)] at hxy
          rcases Nat.lt_trichotomy b.toNat c.toNat with hbc | hbc | hbc
          · simp [hab ▸ hbc]
          · rw [if_neg (by omega), if_neg (by omega)] at hyz
            rw [if_neg (by omega), if_neg (by omega)]
            exact ih bs cs hxy hyz
          · rw [if_neg (by omega), if_pos (by omega)] at hyz
            exact absurd hyz (by simp)
        · rw [if_neg (by omega), if_pos (by omega)] at hxy
          exact absurd hxy (by simp)

/-- Two character sequences neither of which precedes the other are
equal. -/
theorem charsLt_connex (x y : List Char) (hxy : charsLt x y = false)
    (hyx : charsLt y x = false) : x = y := by
  induction x generalizing y with
  | nil =>
    cases y with
    | nil => rfl
    | cons b bs => exact absurd hxy (by simp [charsLt])
  | cons a as ih =>
    cases y with
    | nil => exact absurd hyx (by simp [charsLt])
    | cons b bs =>
      simp only [charsLt] at hxy hyx
      rcases Nat.lt_trichotomy a.toNat b.toNat with hab | hab | hab
      · rw [if_pos hab] at hxy
        exact absurd hxy (by simp)
      · have ha : a = b := Char.ext (UInt32.toNat.inj hab)
        subst ha
        rw [if_neg (by omega), if_neg (by omega)] at hxy hyx
        rw [ih bs hxy hyx]
      · rw [if_pos hab] at hyx
        exact absurd hyx (by simp)

/-- The entry order is transitive. -/
theorem entryLe_trans (a b c : LabelEntry) (hab : entryLe a b = true)
    (hbc : entryLe b c = true) : entryLe a c = true := by
  unfold entryLe at hab hbc ⊢
  simp only [Bool.or_eq_true, Bool.and_eq_true, beq_iff_eq, Bool.not_eq_true'] at hab hbc ⊢
  have lt_of_lt_of_eq : ∀ x y z : List Char, charsLt x y = true → y = z →
      charsLt x z = true := fun x y z h he => he ▸ h
  rcases hab with hab | ⟨hteq, hab2⟩
  · rcases hbc with hbc | ⟨hteq2, _⟩
    · exact Or.inl (charsLt_trans _ _ _ hab hbc)
    · exact Or.inl (lt_of_lt_of_eq _ _ _ hab (by rw [hteq2]))
  · rcases hbc with hbc | ⟨hteq2, hbc2⟩
    · exact Or.inl (by rw [hteq]; exact hbc)
    · refine Or.inr ⟨hteq.trans hteq2, ?_⟩
      rcases hab2 with hab2 | ⟨hveq, hab3⟩
      · rcases hbc2 with hbc2 | ⟨hveq2, _⟩
        · exact Or.inl (charsLt_trans _ _ _ hab2 hbc2)
        · exact Or.inl (lt_of_lt_of_eq _ _ _ hab2 (by rw [hveq2]))
      · rcases hbc2 with hbc2 | ⟨hveq2, hbc3⟩
        · exact Or.inl (by rw [hveq]; exact hbc2)
        · refine Or.inr ⟨hveq.trans hveq2, ?_⟩
          by_cases hca : charsLt c.repository.data a.repository.data = true
          · have h1 : charsLt b.repository.data a.repository.data = false := hab3
            have h2 : charsLt c.repository.data b.repository.data = false := hbc3
            cases hba : charsLt b.repository.data c.repository.data with
            | false =>
              have := charsLt_connex _ _ hba h2
              rw [← this] at hca
              exact absurd hca (by simp [h1])
            | true =>
              cases hab4 : charsLt a.repository.data b.repository.data with
              | false =>
                have := charsLt_connex _ _ hab4 h1
                rw [this] at hca
                exact absurd hca (by simp [h2])
              | true =>
                have := charsLt_trans _ _ _ hab4 hba
                have h5 := charsLt_trans _ _ _ hca this
                rw [charsLt_irrefl] at h5
                exact absurd h5 (by simp)
          · simpa using hca

/-- The entry order is total. -/
theorem entryLe_total (a b : LabelEntry) : entryLe a b = true ∨ entryLe b a = true := by
  unfold entryLe
  simp only [Bool.or_eq_true, Bool.and_eq_true, beq_iff_eq, Bool.not_eq_true']
  cases hab : charsLt a.type.data b.type.data with
  | true => exact Or.inl (Or.inl rfl)
  | false =>
    cases hba : charsLt b.type.data a.type.data with
    | true => exact Or.inr (Or.inl rfl)
    | false =>
      have hteq : a.type = b.type := String.ext (charsLt_connex _ _ hab hba)
      cases hvab : charsLt a.value.data b.value.data with
      | true => exact Or.inl (Or.inr ⟨hteq, Or.inl rfl⟩)
      | false =>
        cases hvba : charsLt b.value.data a.value.data with
        | true => exact Or.inr (Or.inr ⟨hteq.symm, Or.inl rfl⟩)
        | false =>
          have hveq : a.value = b.value := String.ext (charsLt_connex _ _ hvab hvba)
          cases hr : charsLt b.repository.data a.repository.data with
          | false => exact Or.inl (Or.inr ⟨hteq, Or.inr ⟨hveq, rfl⟩⟩)
          | true =>
            refine Or.inr (Or.inr ⟨hteq.symm, Or.inr ⟨hveq.symm, ?_⟩⟩)
            cases hr2 : charsLt a.repository.data b.repository.data with
            | false => rfl
            | true =>
              have := charsLt_trans _ _ _ hr hr2
              rw [charsLt_irrefl] at this
              exact absurd this (by simp)

/-- Claim C2, counterexample: for the entries [(component, b), (name, a),
(name, c)] the sorted output is NOT name/a, name/c, component/b, as the
claim asserts: the type tags are compared as the strings "component" and
"name", and "component" precedes "name" by code point. -/
theorem sort_example_counterexample :
    (sortEntries [⟨"component", "b", "r1", "u1"⟩, ⟨"name", "a", "r2", "u2"⟩,
        ⟨"name", "c", "r3", "u3"⟩]).map (fun e => (e.type, e.value)) ≠
      [("name", "a"), ("name", "c"), ("component", "b")] := by decide

/-- Claim C2, amended: sorting the flattened label entries orders them
ascending by (type, value, repository) under case-sensitive code-point
lexicographic string comparison, producing a permutation of the input; for
the input entries [(component, b), (name, a), (name, c)] the sorted output
order is component/b, then name/a, then name/c. -/
theorem sort_entries_ordered :
    (∀ l : List LabelEntry,
      List.Sorted (fun a b => entryLe a b = true) (sortEntries l) ∧
        (sortEntries l).Perm l) ∧
    (sortEntries [⟨"component", "b", "r1", "u1"⟩, ⟨"name", "a", "r2", "u2"⟩,
        ⟨"name", "c", "r3", "u3"⟩]).map (fun e => (e.type, e.value)) =
      [("component", "b"), ("name", "a"), ("name", "c")] := by
  constructor
  · intro l
    letI : IsTotal LabelEntry (fun a b => entryLe a b = true) := ⟨entryLe_total⟩
    letI : IsTrans LabelEntry (fun a b => entryLe a b = true) := ⟨entryLe_trans⟩
    exact ⟨List.sorted_insertionSort _ l, List.perm_insertionSort _ l⟩
  · decide

/-- Little-endian byte rendering produces exactly the requested number of
bytes. -/
theorem leBytes_length (n k : Nat) : (leBytes n k).length = k := by
  induction k generalizing n with
  | zero => rfl
  | succ k ih => simp [leBytes, ih]

/-- Little-endian byte rendering produces byte values below 256. -/
theorem leBytes_lt (n k : Nat) : ∀ b ∈ leBytes n k, b < 256 := by
  induction k generalizing n with
  | zero => intro b hb; simp [leBytes] at hb
  | succ k ih =>
    intro b hb
    simp only [leBytes, List.mem_cons] at hb
    rcases hb with rfl | hb
    · exact Nat.mod_lt n (by omega)
    · exact ih (n / 256) b hb

/-- The MD5 digest is sixteen bytes long. -/
theorem md5Bytes_length (msg : List Nat) : (md5Bytes msg).length = 16 := by
  unfold md5Bytes
  simp [List.length_append, leBytes_length]

/-- Every byte of the MD5 digest is below 256. -/
theorem md5Bytes_lt (msg : List Nat) : ∀ b ∈ md5Bytes msg, b < 256 := by
  unfold md5Bytes
  intro b hb
  simp only [List.mem_append] at hb
  rcases hb with ((hb | hb) | hb) | hb <;> exact leBytes_lt _ 4 b hb

/-- Reading at any index with a default from the list keeps us in the
list. -/
theorem getD_mem_of_mem (l : List Char) (n : Nat) (d : Char) (hd : d ∈ l) :
    l.getD n d ∈ l := by
  by_cases h : n < l.length
  · rw [List.getD_eq_getElem l d h]
    exact List.getElem_mem h
  · rw [List.getD_eq_default l d (by omega)]
    exact hd

/-- Hex rendering of a byte list yields two characters per byte. -/
theorem hexRender_length (l : List Nat) : ((l.map byteToHex).flatten).length = 2 * l.length := by
  induction l with
  | nil => rfl
  | cons b bs ih =>
    simp only [List.map_cons, List.flatten_cons, List.length_append, ih, byteToHex]
    simp
    omega

/-- Every character of the hex rendering is a lowercase hex digit. -/
theorem hexRender_mem (l : List Nat) :
    ∀ c ∈ (l.map byteToHex).flatten, c ∈ hexDigits := by
  intro c hc
  obtain ⟨cs, hcs, hc2⟩ := List.mem_flatten.mp hc
  obtain ⟨b, _, rfl⟩ := List.mem_map.mp hcs
  simp only [byteToHex, List.mem_cons, List.not_mem_nil, or_false] at hc2
  rcases hc2 with rfl | rfl
  · exact getD_mem_of_mem hexDigits (b / 16) '0' (by decide)
  · exact getD_mem_of_mem hexDigits (b % 16) '0' (by decide)

/-- Claim C3: the first fingerprint of a value is the sixteen-byte MD5
digest rendered as a 32-character lowercase-hex string, the second is the
Base64 encoding of the character bytes of that hex string itself, and both
are pure functions of the value: entries with equal values receive equal
fingerprint pairs regardless of repository or URL. -/
theorem fingerprint_spec (s : String) :
    (md5_and_base64encode s).1 =
      String.mk (((md5Bytes (strBytes s)).map byteToHex).flatten) ∧
    (md5Bytes (strBytes s)).length = 16 ∧
    (∀ b ∈ md5Bytes (strBytes s), b < 256) ∧
    (md5_and_base64encode s).1.length = 32 ∧
    (∀ c ∈ (md5_and_base64encode s).1.data, c ∈ hexDigits) ∧
    (md5_and_base64encode s).2 =
      String.mk (b64encode (strBytes (md5_and_base64encode s).1)) ∧
    ∀ e₁ e₂ : LabelEntry, e₁.value = e₂.value →
      md5_and_base64encode e₁.value = md5_and_base64encode e₂.value := by
  refine ⟨rfl, md5Bytes_length _, md5Bytes_lt _, ?_, ?_, rfl, ?_⟩
  · show (((md5Bytes (strBytes s)).map byteToHex).flatten).length = 32
    rw [hexRender_length, md5Bytes_length]
  · intro c hc
    exact hexRender_mem _ c hc
  · intro e₁ e₂ h
    rw [h]
